import Mathlib

/-!
Verification development for `ivadomed/prepare_dataset.py`.

The numerical core of the file (Gaussian kernel construction, closed-form
multivariate Gaussian evaluation, heatmap generation by convolution,
per-point heatmap construction and max-merging, mid-slice window
arithmetic) is embedded shallowly below.  Arrays are modelled as functions
from index types, machine floats as exact reals, and the numpy reductions
`arr.max()` / `arr.min()` as suprema / infima over the finite index
domain of the array.
-/

open scoped BigOperators

noncomputable section

namespace PrepareDataset

/-! ### Standard normal density and CDF

`scipy.stats.norm.cdf` is the standard normal CDF `Φ`.  The source only
ever uses *differences* `Φ(b) − Φ(a)` (via `np.diff`), so we embed
`normCdf x = Φ(x) − Φ(0) = ∫ t in 0..x, φ(t)` with `φ` the standard
normal density; every difference of `normCdf` values equals the
corresponding difference of `Φ` values. -/

/-- Standard normal probability density `φ(t) = exp(−t²/2)/√(2π)`. -/
def normPdf (t : ℝ) : ℝ := Real.exp (-(t ^ 2) / 2) / Real.sqrt (2 * Real.pi)

/-- `Φ(x) − Φ(0)`, the standard normal CDF up to the additive constant
that cancels in all differences taken by the source. -/
def normCdf (x : ℝ) : ℝ := ∫ t in (0 : ℝ)..x, normPdf t

lemma normPdf_continuous : Continuous normPdf := by
  unfold normPdf
  exact (Real.continuous_exp.comp (by continuity)).div_const _

lemma normPdf_pos (t : ℝ) : 0 < normPdf t := by
  unfold normPdf
  apply div_pos (Real.exp_pos _)
  have : (0 : ℝ) < 2 * Real.pi := by positivity
  exact Real.sqrt_pos.mpr this

lemma normPdf_strictAntiOn {a b : ℝ} (ha : 0 ≤ a) (hab : a < b) :
    normPdf b < normPdf a := by
  unfold normPdf
  have hsq : a ^ 2 < b ^ 2 := by nlinarith
  have hexp : Real.exp (-(b ^ 2) / 2) < Real.exp (-(a ^ 2) / 2) := by
    apply Real.exp_lt_exp.mpr; linarith
  have hs : (0 : ℝ) < Real.sqrt (2 * Real.pi) :=
    Real.sqrt_pos.mpr (by positivity)
  exact div_lt_div_of_pos_right hexp hs

/-! ### 1D Gaussian kernel bins

`gkern`'s 1D kernel: `x = np.linspace(0, 1, kernlen+1)`,
`kern1d = np.diff(scipy.stats.norm.cdf(x))`; bin `i` is
`Φ((i+1)/L) − Φ(i/L)`. -/

/-- `kern1d[i]` from `gkern`: the probability mass of the standard normal
on the bin `[i/L, (i+1)/L]`. -/
def kern1d (L : ℕ) (i : ℕ) : ℝ :=
  normCdf (((i : ℝ) + 1) / L) - normCdf ((i : ℝ) / L)

lemma kern1d_eq_integral (L i : ℕ) :
    kern1d L i = ∫ t in ((i : ℝ) / L)..(((i : ℝ) + 1) / L), normPdf t := by
  unfold kern1d normCdf
  exact intervalIntegral.integral_interval_sub_left
    (normPdf_continuous.intervalIntegrable _ _)
    (normPdf_continuous.intervalIntegrable _ _)

lemma kern1d_pos {L : ℕ} (hL : 1 ≤ L) (i : ℕ) : 0 < kern1d L i := by
  rw [kern1d_eq_integral]
  have hL' : (0 : ℝ) < L := by exact_mod_cast hL
  apply intervalIntegral.intervalIntegral_pos_of_pos_on
    (normPdf_continuous.intervalIntegrable _ _)
    (fun x _ => normPdf_pos x)
  exact div_lt_div_of_pos_right (by linarith) hL'

lemma kern1d_succ_lt {L : ℕ} (hL : 1 ≤ L) (i : ℕ) :
    kern1d L (i + 1) < kern1d L i := by
  have hL' : (0 : ℝ) < L := by exact_mod_cast hL
  have hstep : ((i : ℝ) + 1) / L = (i : ℝ) / L + 1 / L := by ring
  have hstep2 : ((i : ℝ) + 1 + 1) / L = ((i : ℝ) + 1) / L + 1 / L := by ring
  -- rewrite the (i+1)-st bin as an integral of the shifted density over the i-th bin
  have hshift : kern1d L (i + 1)
      = ∫ t in ((i : ℝ) / L)..(((i : ℝ) + 1) / L), normPdf (t + 1 / L) := by
    rw [kern1d_eq_integral, intervalIntegral.integral_comp_add_right, Nat.cast_add,
      Nat.cast_one, ← hstep, ← hstep2]
  have hc : Continuous (fun t : ℝ => normPdf (t + 1 / L)) :=
    normPdf_continuous.comp (continuous_add_right _)
  have hdiff : 0 < ∫ t in ((i : ℝ) / L)..(((i : ℝ) + 1) / L),
      (normPdf t - normPdf (t + 1 / L)) := by
    apply intervalIntegral.intervalIntegral_pos_of_pos_on
      ((normPdf_continuous.sub hc).intervalIntegrable _ _)
    · intro x hx
      have hbin : (0 : ℝ) ≤ (i : ℝ) / L := by positivity
      have hx0 : 0 ≤ x := le_of_lt (lt_of_le_of_lt hbin hx.1)
      have : normPdf (x + 1 / L) < normPdf x :=
        normPdf_strictAntiOn hx0 (lt_add_of_pos_right x (by positivity))
      linarith
    · exact div_lt_div_of_pos_right (by linarith) hL'
  rw [intervalIntegral.integral_sub (normPdf_continuous.intervalIntegrable _ _)
    (hc.intervalIntegrable _ _)] at hdiff
  rw [hshift, kern1d_eq_integral]
  linarith

lemma kern1d_strictAnti {L : ℕ} (hL : 1 ≤ L) : StrictAnti (kern1d L) :=
  strictAnti_nat_of_succ_lt (kern1d_succ_lt hL)

lemma kern1d_anti {L : ℕ} (hL : 1 ≤ L) : Antitone (kern1d L) :=
  (kern1d_strictAnti hL).antitone

/-! ### Array max / min and `normalize`

A 2D array of shape `R × C` is a function `ℕ → ℕ → ℝ` read on
`[0,R) × [0,C)`.  `arr.max()` / `arr.min()` are the sup / inf over that
index set; the index set is padded with `(0,0)` so the reduction is total
(for the shapes the source ever uses, `R, C ≥ 1`, the padding is
absorbed and the reduction is exactly numpy's). -/

/-- Index domain of an `R × C` array, padded with `(0,0)` to stay nonempty. -/
def idx2 (R C : ℕ) : Finset (ℕ × ℕ) :=
  insert (0, 0) ((Finset.range R) ×ˢ (Finset.range C))

lemma idx2_nonempty (R C : ℕ) : (idx2 R C).Nonempty :=
  ⟨(0, 0), Finset.mem_insert_self _ _⟩

lemma mem_idx2 {R C i j : ℕ} (hi : i < R) (hj : j < C) : (i, j) ∈ idx2 R C := by
  unfold idx2
  exact Finset.mem_insert_of_mem
    (Finset.mem_product.mpr ⟨Finset.mem_range.mpr hi, Finset.mem_range.mpr hj⟩)

lemma idx2_eq_prod {R C : ℕ} (hR : 1 ≤ R) (hC : 1 ≤ C) :
    idx2 R C = (Finset.range R) ×ˢ (Finset.range C) := by
  unfold idx2
  exact Finset.insert_eq_self.mpr
    (Finset.mem_product.mpr ⟨Finset.mem_range.mpr hR, Finset.mem_range.mpr hC⟩)

/-- `arr.max()` over an `R × C` array. -/
def matMax (R C : ℕ) (f : ℕ → ℕ → ℝ) : ℝ :=
  (idx2 R C).sup' (idx2_nonempty R C) (fun p => f p.1 p.2)

/-- `arr.min()` over an `R × C` array. -/
def matMin (R C : ℕ) (f : ℕ → ℕ → ℝ) : ℝ :=
  (idx2 R C).inf' (idx2_nonempty R C) (fun p => f p.1 p.2)

lemma le_matMax {R C : ℕ} (f : ℕ → ℕ → ℝ) {i j : ℕ} (hi : i < R) (hj : j < C) :
    f i j ≤ matMax R C f :=
  Finset.le_sup' (fun p => f p.1 p.2) (mem_idx2 hi hj)

lemma matMin_le {R C : ℕ} (f : ℕ → ℕ → ℝ) {i j : ℕ} (hi : i < R) (hj : j < C) :
    matMin R C f ≤ f i j :=
  Finset.inf'_le (fun p : ℕ × ℕ => f p.1 p.2) (mem_idx2 hi hj)

lemma matMax_le {R C : ℕ} (f : ℕ → ℕ → ℝ) {b : ℝ} (hR : 1 ≤ R) (hC : 1 ≤ C)
    (h : ∀ i j, i < R → j < C → f i j ≤ b) : matMax R C f ≤ b := by
  unfold matMax
  rw [Finset.sup'_le_iff]
  intro p hp
  rw [idx2_eq_prod hR hC, Finset.mem_product, Finset.mem_range, Finset.mem_range] at hp
  exact h p.1 p.2 hp.1 hp.2

lemma le_matMin {R C : ℕ} (f : ℕ → ℕ → ℝ) {b : ℝ} (hR : 1 ≤ R) (hC : 1 ≤ C)
    (h : ∀ i j, i < R → j < C → b ≤ f i j) : b ≤ matMin R C f := by
  unfold matMin
  rw [Finset.le_inf'_iff]
  intro p hp
  rw [idx2_eq_prod hR hC, Finset.mem_product, Finset.mem_range, Finset.mem_range] at hp
  exact h p.1 p.2 hp.1 hp.2

lemma exists_matMax {R C : ℕ} (f : ℕ → ℕ → ℝ) (hR : 1 ≤ R) (hC : 1 ≤ C) :
    ∃ i j, i < R ∧ j < C ∧ matMax R C f = f i j := by
  obtain ⟨p, hp, hval⟩ := Finset.exists_mem_eq_sup' (idx2_nonempty R C)
    (fun p : ℕ × ℕ => f p.1 p.2)
  rw [idx2_eq_prod hR hC, Finset.mem_product, Finset.mem_range, Finset.mem_range] at hp
  exact ⟨p.1, p.2, hp.1, hp.2, hval⟩

/-- `normalize(arr) = (arr - arr.min()) / (arr.max() - arr.min())` on an
`R × C` array; the source raises no error on a constant array, where the
division is `0/0` (NaN in numpy, `0` in this embedding). -/
def normalize (R C : ℕ) (f : ℕ → ℕ → ℝ) (i j : ℕ) : ℝ :=
  (f i j - matMin R C f) / (matMax R C f - matMin R C f)

/-! ### `gkern` -/

/-- `kern2d = np.outer(kern1d, kern1d)`. -/
def kern2d (L : ℕ) (i j : ℕ) : ℝ := kern1d L i * kern1d L j

/-- `kern2d.sum()`. -/
def kern2dSum (L : ℕ) : ℝ :=
  ∑ i ∈ Finset.range L, ∑ j ∈ Finset.range L, kern2d L i j

/-- `kern2d / kern2d.sum()`, the array `gkern` passes to `normalize`. -/
def gkernPre (L : ℕ) (i j : ℕ) : ℝ := kern2d L i j / kern2dSum L

/-- `gkern(kernlen)`: the sum-normalized outer-product kernel, min-max
normalized. -/
def gkern (L : ℕ) : ℕ → ℕ → ℝ := normalize L L (gkernPre L)

lemma kern2dSum_pos {L : ℕ} (hL : 1 ≤ L) : 0 < kern2dSum L := by
  unfold kern2dSum
  apply Finset.sum_pos
  · intro i _
    apply Finset.sum_pos
    · intro j _
      exact mul_pos (kern1d_pos hL i) (kern1d_pos hL j)
    · exact ⟨0, Finset.mem_range.mpr hL⟩
  · exact ⟨0, Finset.mem_range.mpr hL⟩

lemma gkernPre_pos {L : ℕ} (hL : 1 ≤ L) (i j : ℕ) : 0 < gkernPre L i j :=
  div_pos (mul_pos (kern1d_pos hL i) (kern1d_pos hL j)) (kern2dSum_pos hL)

lemma gkernPre_symm (L i j : ℕ) : gkernPre L i j = gkernPre L j i := by
  unfold gkernPre kern2d; ring

/-- Strict maximum of the pre-normalization kernel at the `(0,0)` corner. -/
lemma gkernPre_lt_corner {L : ℕ} (hL : 1 ≤ L) {i j : ℕ}
    (hne : ¬(i = 0 ∧ j = 0)) : gkernPre L i j < gkernPre L 0 0 := by
  have hS := kern2dSum_pos hL
  apply div_lt_div_of_pos_right _ hS
  unfold kern2d
  have h0 := kern1d_pos hL 0
  have hi' : kern1d L i ≤ kern1d L 0 := kern1d_anti hL (Nat.zero_le i)
  have hj' : kern1d L j ≤ kern1d L 0 := kern1d_anti hL (Nat.zero_le j)
  rcases Nat.eq_zero_or_pos i with hi0 | hipos
  · rcases Nat.eq_zero_or_pos j with hj0 | hjpos
    · exact absurd ⟨hi0, hj0⟩ hne
    · have : kern1d L j < kern1d L 0 := kern1d_strictAnti hL hjpos
      have hip := kern1d_pos hL i
      subst hi0
      nlinarith
  · have : kern1d L i < kern1d L 0 := kern1d_strictAnti hL hipos
    have hjp := kern1d_pos hL j
    nlinarith

lemma gkernPre_corner_le {L : ℕ} (hL : 1 ≤ L) (i j : ℕ) :
    gkernPre L i j ≤ gkernPre L 0 0 := by
  by_cases h : i = 0 ∧ j = 0
  · rw [h.1, h.2]
  · exact le_of_lt (gkernPre_lt_corner hL h)

lemma gkernPre_last_le {L : ℕ} (hL : 1 ≤ L) {i j : ℕ} (hi : i < L) (hj : j < L) :
    gkernPre L (L - 1) (L - 1) ≤ gkernPre L i j := by
  have hS := kern2dSum_pos hL
  apply div_le_div_of_nonneg_right _ hS.le
  unfold kern2d
  have hlp := kern1d_pos hL (L - 1)
  have hiv : kern1d L (L - 1) ≤ kern1d L i :=
    kern1d_anti hL (Nat.le_sub_one_of_lt hi)
  have hjv : kern1d L (L - 1) ≤ kern1d L j :=
    kern1d_anti hL (Nat.le_sub_one_of_lt hj)
  nlinarith [kern1d_pos hL i, kern1d_pos hL j]

lemma matMax_gkernPre {L : ℕ} (hL : 1 ≤ L) :
    matMax L L (gkernPre L) = gkernPre L 0 0 := by
  apply le_antisymm
  · exact matMax_le _ hL hL (fun i j _ _ => gkernPre_corner_le hL i j)
  · exact le_matMax _ hL hL

lemma matMin_gkernPre {L : ℕ} (hL : 1 ≤ L) :
    matMin L L (gkernPre L) = gkernPre L (L - 1) (L - 1) := by
  apply le_antisymm
  · exact matMin_le _ (Nat.sub_lt hL Nat.one_pos) (Nat.sub_lt hL Nat.one_pos)
  · exact le_matMin _ hL hL (fun i j hi hj => gkernPre_last_le hL hi hj)

lemma gkernPre_span_pos {L : ℕ} (hL : 2 ≤ L) :
    0 < gkernPre L 0 0 - gkernPre L (L - 1) (L - 1) := by
  have h1L : 1 ≤ L := le_trans (by norm_num) hL
  have : gkernPre L (L - 1) (L - 1) < gkernPre L 0 0 := by
    apply gkernPre_lt_corner h1L
    rintro ⟨h, -⟩
    omega
  linarith

lemma gkern_eq {L : ℕ} (hL : 2 ≤ L) (i j : ℕ) :
    gkern L i j = (gkernPre L i j - gkernPre L (L - 1) (L - 1)) /
      (gkernPre L 0 0 - gkernPre L (L - 1) (L - 1)) := by
  have h1L : 1 ≤ L := le_trans (by norm_num) hL
  unfold gkern normalize
  rw [matMax_gkernPre h1L, matMin_gkernPre h1L]

lemma gkern_symm (L i j : ℕ) : gkern L i j = gkern L j i := by
  unfold gkern normalize
  rw [gkernPre_symm]

lemma gkern_nonneg {L : ℕ} (hL : 2 ≤ L) {i j : ℕ} (hi : i < L) (hj : j < L) :
    0 ≤ gkern L i j := by
  have h1L : 1 ≤ L := le_trans (by norm_num) hL
  rw [gkern_eq hL]
  apply div_nonneg _ (gkernPre_span_pos hL).le
  have := gkernPre_last_le h1L hi hj
  linarith

lemma gkern_le_one {L : ℕ} (hL : 2 ≤ L) (i j : ℕ) : gkern L i j ≤ 1 := by
  have h1L : 1 ≤ L := le_trans (by norm_num) hL
  rw [gkern_eq hL]
  rw [div_le_one (gkernPre_span_pos hL)]
  have := gkernPre_corner_le h1L i j
  linarith

lemma gkern_corner {L : ℕ} (hL : 2 ≤ L) : gkern L 0 0 = 1 := by
  rw [gkern_eq hL]
  exact div_self (gkernPre_span_pos hL).ne'

lemma gkern_lt_corner {L : ℕ} (hL : 2 ≤ L) {i j : ℕ}
    (hne : ¬(i = 0 ∧ j = 0)) : gkern L i j < gkern L 0 0 := by
  have h1L : 1 ≤ L := le_trans (by norm_num) hL
  rw [gkern_eq hL, gkern_eq hL]
  apply div_lt_div_of_pos_right _ (gkernPre_span_pos hL)
  have := gkernPre_lt_corner h1L hne
  linarith

/-! ### `heatmap_generation`

`scipy.signal.convolve` (default mode `full`) of an `M × N` image with
the `L × L` kernel: `out[i,j] = Σ_{p,q} img[p,q] · K[i−p, j−q]`, the
kernel read as zero outside its extent; the output array has shape
`(M+L−1) × (N+L−1)`. -/

/-- `gkern` read at `ℤ` offsets, zero outside its `L × L` support. -/
def gkernZ (L : ℕ) (a b : ℤ) : ℝ :=
  if 0 ≤ a ∧ a < (L : ℤ) ∧ 0 ≤ b ∧ b < (L : ℤ) then gkern L a.toNat b.toNat
  else 0

/-- Full-mode 2D convolution of an `M × N` image with `gkern(L)`. -/
def fullConv (img : ℕ → ℕ → ℝ) (M N L : ℕ) (i j : ℤ) : ℝ :=
  ∑ p ∈ Finset.range M, ∑ q ∈ Finset.range N,
    img p q * gkernZ L (i - p) (j - q)

/-- `heatmap_generation(image, kernel_size)`:
`normalize(scipy.signal.convolve(image, gkern(kernel_size)))`, the
normalization running over the `(M+L−1) × (N+L−1)` full-convolution
output. -/
def heatmap_generation (img : ℕ → ℕ → ℝ) (M N L : ℕ) : ℕ → ℕ → ℝ :=
  normalize (M + L - 1) (N + L - 1) (fun i j => fullConv img M N L i j)

/-- A binary image holding a single voxel label at `(r, c)`. -/
def deltaImg (r c : ℕ) : ℕ → ℕ → ℝ :=
  fun p q => if p = r ∧ q = c then 1 else 0

lemma gkernZ_zero_zero {L : ℕ} (hL : 2 ≤ L) : gkernZ L 0 0 = 1 := by
  unfold gkernZ
  rw [if_pos ⟨le_refl 0, by exact_mod_cast Nat.lt_of_lt_of_le Nat.zero_lt_two hL,
    le_refl 0, by exact_mod_cast Nat.lt_of_lt_of_le Nat.zero_lt_two hL⟩]
  exact gkern_corner hL

lemma gkernZ_nonneg {L : ℕ} (hL : 2 ≤ L) (a b : ℤ) : 0 ≤ gkernZ L a b := by
  unfold gkernZ
  split
  · next h =>
    exact gkern_nonneg hL (by omega) (by omega)
  · exact le_refl 0

lemma gkernZ_lt_one {L : ℕ} (hL : 2 ≤ L) {a b : ℤ} (hne : ¬(a = 0 ∧ b = 0)) :
    gkernZ L a b < 1 := by
  unfold gkernZ
  split
  · next h =>
    rw [← gkern_corner hL]
    exact gkern_lt_corner hL (by omega)
  · linarith [gkern_corner hL]

lemma fullConv_delta {M N L : ℕ} {r c : ℕ} (hr : r < M) (hc : c < N)
    (i j : ℤ) : fullConv (deltaImg r c) M N L i j = gkernZ L (i - r) (j - c) := by
  unfold fullConv
  rw [Finset.sum_eq_single r]
  · rw [Finset.sum_eq_single c]
    · simp [deltaImg]
    · intro q _ hq
      simp [deltaImg, hq]
    · intro h
      exact absurd (Finset.mem_range.mpr hc) h
  · intro p _ hp
    apply Finset.sum_eq_zero
    intro q _
    simp [deltaImg, hp]
  · intro h
    exact absurd (Finset.mem_range.mpr hr) h

/-- Support bound of the full convolution: outside the
`(M+L−1) × (N+L−1)` output window the convolution sum vanishes (this is
exactly why scipy's `full` output has that shape). -/
lemma fullConv_support {M N L : ℕ} (img : ℕ → ℕ → ℝ) {i j : ℤ}
    (h : ¬(0 ≤ i ∧ i < (M : ℤ) + L - 1 ∧ 0 ≤ j ∧ j < (N : ℤ) + L - 1)) :
    fullConv img M N L i j = 0 := by
  unfold fullConv
  apply Finset.sum_eq_zero
  intro p hp
  apply Finset.sum_eq_zero
  intro q hq
  rw [Finset.mem_range] at hp hq
  have : gkernZ L (i - p) (j - q) = 0 := by
    unfold gkernZ
    rw [if_neg]
    omega
  rw [this, mul_zero]

lemma gkernPre_last_lt {L : ℕ} (hL : 2 ≤ L) {i j : ℕ} (hi : i < L) (hj : j < L)
    (hne : ¬(i = L - 1 ∧ j = L - 1)) :
    gkernPre L (L - 1) (L - 1) < gkernPre L i j := by
  have h1L : 1 ≤ L := le_trans (by norm_num) hL
  apply div_lt_div_of_pos_right _ (kern2dSum_pos h1L)
  unfold kern2d
  have hlp := kern1d_pos h1L (L - 1)
  have hiv : kern1d L (L - 1) ≤ kern1d L i :=
    kern1d_anti h1L (Nat.le_sub_one_of_lt hi)
  have hjv : kern1d L (L - 1) ≤ kern1d L j :=
    kern1d_anti h1L (Nat.le_sub_one_of_lt hj)
  rcases Nat.lt_or_ge i (L - 1) with hlt | hge
  · have : kern1d L (L - 1) < kern1d L i := kern1d_strictAnti h1L hlt
    nlinarith [kern1d_pos h1L j]
  · have hieq : i = L - 1 := by omega
    have hjlt : j < L - 1 := by omega
    have : kern1d L (L - 1) < kern1d L j := kern1d_strictAnti h1L hjlt
    nlinarith [kern1d_pos h1L i]

lemma gkern_pos {L : ℕ} (hL : 2 ≤ L) {i j : ℕ} (hi : i < L) (hj : j < L)
    (hne : ¬(i = L - 1 ∧ j = L - 1)) : 0 < gkern L i j := by
  rw [gkern_eq hL]
  apply div_pos _ (gkernPre_span_pos hL)
  have := gkernPre_last_lt hL hi hj hne
  linarith

/-- On the single-point image, `heatmap_generation` attains its strict
maximum at the point's own coordinate `(r, c)`: every other pixel of the
`(M+L−1) × (N+L−1)` output is strictly smaller. -/
lemma heat_delta_lt_peak {M N L r c : ℕ} (hL : 2 ≤ L) (hr : r < M) (hc : c < N)
    {i j : ℕ} (hi : i < M + L - 1) (hj : j < N + L - 1) (hne : ¬(i = r ∧ j = c)) :
    heatmap_generation (deltaImg r c) M N L i j
      < heatmap_generation (deltaImg r c) M N L r c := by
  have hF : ∀ a b : ℕ, fullConv (deltaImg r c) M N L a b
      = gkernZ L ((a : ℤ) - r) ((b : ℤ) - c) := fun a b => fullConv_delta hr hc _ _
  have hRpos : 1 ≤ M + L - 1 := by omega
  have hCpos : 1 ≤ N + L - 1 := by omega
  have hrR : r < M + L - 1 := by omega
  have hcC : c < N + L - 1 := by omega
  have hc1C : c + 1 < N + L - 1 := by omega
  have hpeak : fullConv (deltaImg r c) M N L (r : ℕ) (c : ℕ) = 1 := by
    rw [hF, sub_self, sub_self, gkernZ_zero_zero hL]
  have hij : fullConv (deltaImg r c) M N L (i : ℕ) (j : ℕ) < 1 := by
    rw [hF]
    exact gkernZ_lt_one hL (by omega)
  have hnext : fullConv (deltaImg r c) M N L (r : ℕ) ((c + 1 : ℕ)) < 1 := by
    rw [hF]
    exact gkernZ_lt_one hL (by omega)
  set F : ℕ → ℕ → ℝ := fun a b => fullConv (deltaImg r c) M N L a b with hFdef
  have hma : (1 : ℝ) ≤ matMax (M + L - 1) (N + L - 1) F := by
    rw [← hpeak]
    exact le_matMax F hrR hcC
  have hmi : matMin (M + L - 1) (N + L - 1) F < 1 := by
    calc matMin (M + L - 1) (N + L - 1) F ≤ F r (c + 1) := matMin_le F hrR hc1C
    _ < 1 := hnext
  have hspan : 0 < matMax (M + L - 1) (N + L - 1) F
      - matMin (M + L - 1) (N + L - 1) F := by linarith
  show normalize (M + L - 1) (N + L - 1) F i j
      < normalize (M + L - 1) (N + L - 1) F r c
  unfold normalize
  apply div_lt_div_of_pos_right _ hspan
  have : F i j < F r c := by
    show fullConv (deltaImg r c) M N L (i : ℕ) (j : ℕ)
      < fullConv (deltaImg r c) M N L (r : ℕ) (c : ℕ)
    rw [hpeak]
    exact hij
  linarith

/-! ### `multivariate_gaussian` -/

/-- A 2×2 matrix, as in the `np.array([[a, b], [c, d]])` the source builds. -/
structure Mat2 where
  a : ℝ
  b : ℝ
  c : ℝ
  d : ℝ

/-- `np.linalg.det` of a 2×2 matrix. -/
def det2 (S : Mat2) : ℝ := S.a * S.d - S.b * S.c

/-- `np.linalg.inv` of a 2×2 matrix (adjugate over determinant).  numpy
raises `LinAlgError` on a singular input; `multivariate_gaussian_checked`
models that boundary, this total version carries the formula used when
the inverse exists. -/
def inv2 (S : Mat2) : Mat2 :=
  ⟨S.d / det2 S, -S.b / det2 S, -S.c / det2 S, S.a / det2 S⟩

/-- The einsum `...k,kl,...l->...` of the source at one grid point:
`vᵀ · S · v` for `v : ℝ × ℝ`. -/
def quadForm (S : Mat2) (v : ℝ × ℝ) : ℝ :=
  v.1 * (S.a * v.1 + S.b * v.2) + v.2 * (S.c * v.1 + S.d * v.2)

/-- `multivariate_gaussian(pos, mu, Sigma)` at a single grid point
(`n = mu.shape[0] = 2`); the source evaluates the same arithmetic
vectorized over the whole mesh. -/
def multivariate_gaussian (pos mu : ℝ × ℝ) (S : Mat2) : ℝ :=
  Real.exp (-(quadForm (inv2 S) (pos.1 - mu.1, pos.2 - mu.2)) / 2)
    / Real.sqrt ((2 * Real.pi) ^ (2 : ℕ) * det2 S)

/-- `np.linalg.inv` raises `LinAlgError` exactly on a singular matrix,
aborting the evaluator before any density is produced; on every other
input the evaluation completes. -/
def multivariate_gaussian_checked (pos mu : ℝ × ℝ) (S : Mat2) : Option ℝ :=
  if det2 S = 0 then none else some (multivariate_gaussian pos mu S)

/-- `Sigma = np.array([[radius, 0], [0, radius]])`. -/
def diagS (r : ℝ) : Mat2 := ⟨r, 0, 0, r⟩

/-- Squared Euclidean distance in the plane. -/
def euclidSq (p q : ℝ × ℝ) : ℝ := (p.1 - q.1) ^ 2 + (p.2 - q.2) ^ 2

lemma mvg_diag_eq {r : ℝ} (hr : 0 < r) (p mu : ℝ × ℝ) :
    multivariate_gaussian p mu (diagS r)
      = Real.exp (-(euclidSq p mu / r) / 2) / (2 * Real.pi * r) := by
  unfold multivariate_gaussian quadForm inv2 det2 diagS euclidSq
  simp only
  have hrne : r ≠ 0 := hr.ne'
  have hq : (p.1 - mu.1) * (r / (r * r - 0 * 0) * (p.1 - mu.1)
        + -0 / (r * r - 0 * 0) * (p.2 - mu.2))
      + (p.2 - mu.2) * (-0 / (r * r - 0 * 0) * (p.1 - mu.1)
        + r / (r * r - 0 * 0) * (p.2 - mu.2))
      = ((p.1 - mu.1) ^ 2 + (p.2 - mu.2) ^ 2) / r := by
    field_simp
    ring
  rw [hq]
  have hN : Real.sqrt ((2 * Real.pi) ^ (2 : ℕ) * (r * r - 0 * 0))
      = 2 * Real.pi * r := by
    have h2 : (2 * Real.pi) ^ (2 : ℕ) * (r * r - 0 * 0)
        = (2 * Real.pi * r) ^ 2 := by ring
    rw [h2]
    exact Real.sqrt_sq (by positivity)
  rw [hN]

lemma mvg_diag_pos {r : ℝ} (hr : 0 < r) (p mu : ℝ × ℝ) :
    0 < multivariate_gaussian p mu (diagS r) := by
  rw [mvg_diag_eq hr]
  exact div_pos (Real.exp_pos _) (by positivity)

/-- The closed-form density is maximal at the mean. -/
lemma mvg_diag_le_mean {r : ℝ} (hr : 0 < r) (p mu : ℝ × ℝ) :
    multivariate_gaussian p mu (diagS r)
      ≤ multivariate_gaussian mu mu (diagS r) := by
  rw [mvg_diag_eq hr, mvg_diag_eq hr]
  apply div_le_div_of_nonneg_right _ (by positivity)
  apply Real.exp_le_exp.mpr
  have h0 : euclidSq mu mu = 0 := by unfold euclidSq; ring
  have h1 : 0 ≤ euclidSq p mu := by unfold euclidSq; positivity
  rw [h0, zero_div]
  have : 0 ≤ euclidSq p mu / r := by positivity
  linarith

/-- The closed-form density strictly decreases with squared Euclidean
distance from the mean. -/
lemma mvg_diag_strictAnti {r : ℝ} (hr : 0 < r) {p q mu : ℝ × ℝ}
    (hpq : euclidSq p mu < euclidSq q mu) :
    multivariate_gaussian q mu (diagS r)
      < multivariate_gaussian p mu (diagS r) := by
  rw [mvg_diag_eq hr, mvg_diag_eq hr]
  apply div_lt_div_of_pos_right _ (by positivity)
  apply Real.exp_lt_exp.mpr
  have : euclidSq p mu / r < euclidSq q mu / r :=
    div_lt_div_of_pos_right hpq hr
  linarith

/-! ### `label2maskmap_gt`

`(M, N) = (shape[2], shape[1])`; `np.meshgrid` over `0..M−1` × `0..N−1`
produces arrays of shape `(N, M)`, so `Z[j, i]` is the density at grid
point `(i, j)` with mean `(x, y) = (data[2] + c_dx, data[1] + c_dy)`.
The shape's first component is never read.  `data[2]` on the
post-shim list is total in the pipeline (the shim pads any ≤2-element
list to 3 elements); the embedding reads it with default `0`. -/

/-- The `len(data) <= 2` compatibility shim: prepend a `0` slice index. -/
def fixData (data : List ℝ) : List ℝ :=
  if data.length ≤ 2 then 0 :: data else data

/-- `x = data[2] + c_dx` (after the shim). -/
def l2m_x (data : List ℝ) (c_dx : ℝ) : ℝ := (fixData data).getD 2 0 + c_dx

/-- `y = data[1] + c_dy` (after the shim). -/
def l2m_y (data : List ℝ) (c_dy : ℝ) : ℝ := (fixData data).getD 1 0 + c_dy

/-- The evaluated grid `Z` of `label2maskmap_gt`:
`Z[j, i] = multivariate_gaussian((i, j), (x, y), diag(radius, radius))`. -/
def l2m_Z (data : List ℝ) (c_dx c_dy radius : ℝ) (j i : ℕ) : ℝ :=
  multivariate_gaussian ((i : ℝ), (j : ℝ))
    (l2m_x data c_dx, l2m_y data c_dy) (diagS radius)

/-- `np.max(Z)` over the `(N, M) = (shape1, shape2)` grid. -/
def l2m_Zmax (data : List ℝ) (s1 s2 : ℕ) (c_dx c_dy radius : ℝ) : ℝ :=
  matMax s1 s2 (l2m_Z data c_dx c_dy radius)

/-- `label2maskmap_gt` with `normalize=True`: `Z * (1 / np.max(Z))`. -/
def label2maskmap_unit (data : List ℝ) (s1 s2 : ℕ) (c_dx c_dy radius : ℝ)
    (j i : ℕ) : ℝ :=
  l2m_Z data c_dx c_dy radius j i * (1 / l2m_Zmax data s1 s2 c_dx c_dy radius)

/-- `label2maskmap_gt` with `normalize=False` (the default): peak-scale,
multiply by 255, convert to `np.uint8`.  The scaled values lie in
`[0, 255]`, so the 8-bit conversion never wraps and is the truncation
`⌊z · 255⌋`. -/
def label2maskmap_byte (data : List ℝ) (s1 s2 : ℕ) (c_dx c_dy radius : ℝ)
    (j i : ℕ) : ℕ :=
  (⌊label2maskmap_unit data s1 s2 c_dx c_dy radius j i * 255⌋).toNat

lemma l2m_Z_pos {radius : ℝ} (hr : 0 < radius) (data : List ℝ)
    (c_dx c_dy : ℝ) (j i : ℕ) : 0 < l2m_Z data c_dx c_dy radius j i :=
  mvg_diag_pos hr _ _

lemma l2m_Zmax_pos {radius : ℝ} (hr : 0 < radius) (data : List ℝ)
    {s1 s2 : ℕ} (h1 : 1 ≤ s1) (h2 : 1 ≤ s2) (c_dx c_dy : ℝ) :
    0 < l2m_Zmax data s1 s2 c_dx c_dy radius :=
  lt_of_lt_of_le (l2m_Z_pos hr data c_dx c_dy 0 0)
    (le_matMax (l2m_Z data c_dx c_dy radius) h1 h2)

lemma label2maskmap_unit_nonneg {radius : ℝ} (hr : 0 < radius)
    (data : List ℝ) {s1 s2 : ℕ} (h1 : 1 ≤ s1) (h2 : 1 ≤ s2)
    (c_dx c_dy : ℝ) (j i : ℕ) :
    0 ≤ label2maskmap_unit data s1 s2 c_dx c_dy radius j i := by
  unfold label2maskmap_unit
  have := l2m_Z_pos hr data c_dx c_dy j i
  have := l2m_Zmax_pos hr data h1 h2 c_dx c_dy
  positivity

lemma label2maskmap_unit_le_one {radius : ℝ} (hr : 0 < radius)
    (data : List ℝ) {s1 s2 : ℕ} {j i : ℕ} (hj : j < s1) (hi : i < s2)
    (c_dx c_dy : ℝ) :
    label2maskmap_unit data s1 s2 c_dx c_dy radius j i ≤ 1 := by
  unfold label2maskmap_unit
  have h1 : 1 ≤ s1 := Nat.one_le_of_lt (Nat.lt_of_le_of_lt (Nat.zero_le j) hj)
  have h2 : 1 ≤ s2 := Nat.one_le_of_lt (Nat.lt_of_le_of_lt (Nat.zero_le i) hi)
  have hmax := l2m_Zmax_pos hr data h1 h2 c_dx c_dy
  have hle : l2m_Z data c_dx c_dy radius j i
      ≤ l2m_Zmax data s1 s2 c_dx c_dy radius :=
    le_matMax (l2m_Z data c_dx c_dy radius) hj hi
  rw [mul_one_div, div_le_one hmax]
  exact hle

lemma exists_label2maskmap_unit_eq_one {radius : ℝ} (hr : 0 < radius)
    (data : List ℝ) {s1 s2 : ℕ} (h1 : 1 ≤ s1) (h2 : 1 ≤ s2)
    (c_dx c_dy : ℝ) :
    ∃ j i, j < s1 ∧ i < s2 ∧
      label2maskmap_unit data s1 s2 c_dx c_dy radius j i = 1 := by
  obtain ⟨j, i, hj, hi, hval⟩ :=
    exists_matMax (l2m_Z data c_dx c_dy radius) h1 h2
  refine ⟨j, i, hj, hi, ?_⟩
  unfold label2maskmap_unit
  have hmax := l2m_Zmax_pos hr data h1 h2 c_dx c_dy
  have hZ : l2m_Z data c_dx c_dy radius j i
      = l2m_Zmax data s1 s2 c_dx c_dy radius := hval.symm
  rw [hZ, mul_one_div, div_self hmax.ne']

lemma label2maskmap_byte_le_255 {radius : ℝ} (hr : 0 < radius)
    (data : List ℝ) {s1 s2 : ℕ} {j i : ℕ} (hj : j < s1) (hi : i < s2)
    (c_dx c_dy : ℝ) :
    label2maskmap_byte data s1 s2 c_dx c_dy radius j i ≤ 255 := by
  unfold label2maskmap_byte
  have hle := label2maskmap_unit_le_one hr data hj hi c_dx c_dy
  have hb255 : label2maskmap_unit data s1 s2 c_dx c_dy radius j i * 255
      ≤ (255 : ℝ) := by nlinarith
  have : ⌊label2maskmap_unit data s1 s2 c_dx c_dy radius j i * 255⌋
      ≤ ⌊(255 : ℝ)⌋ := Int.floor_mono hb255
  have h255 : ⌊(255 : ℝ)⌋ = (255 : ℤ) := by norm_num
  omega

lemma label2maskmap_byte_eq_255_of_unit_one {data : List ℝ}
    {s1 s2 : ℕ} {j i : ℕ} {c_dx c_dy radius : ℝ}
    (h : label2maskmap_unit data s1 s2 c_dx c_dy radius j i = 1) :
    label2maskmap_byte data s1 s2 c_dx c_dy radius j i = 255 := by
  unfold label2maskmap_byte
  rw [h, one_mul]
  have h255 : ⌊(255 : ℝ)⌋ = (255 : ℤ) := by norm_num
  rw [h255]
  rfl

/-- When the (shifted) mean sits exactly on a grid pixel `(pa, pb)` of
the evaluated window, the grid maximum is attained there, the unit
heatmap equals `1` there, and the byte heatmap equals `255` there. -/
lemma label2maskmap_peak {radius : ℝ} (hr : 0 < radius) {data : List ℝ}
    {s1 s2 pa pb : ℕ} (ha : pa < s1) (hb : pb < s2) {c_dx c_dy : ℝ}
    (hx : l2m_x data c_dx = (pb : ℝ)) (hy : l2m_y data c_dy = (pa : ℝ)) :
    label2maskmap_unit data s1 s2 c_dx c_dy radius pa pb = 1 ∧
      label2maskmap_byte data s1 s2 c_dx c_dy radius pa pb = 255 := by
  have h1 : 1 ≤ s1 := Nat.one_le_of_lt (Nat.lt_of_le_of_lt (Nat.zero_le pa) ha)
  have h2 : 1 ≤ s2 := Nat.one_le_of_lt (Nat.lt_of_le_of_lt (Nat.zero_le pb) hb)
  have hmean : ∀ j i : ℕ, l2m_Z data c_dx c_dy radius j i
      ≤ l2m_Z data c_dx c_dy radius pa pb := by
    intro j i
    unfold l2m_Z
    rw [hx, hy]
    exact mvg_diag_le_mean hr _ _
  have hZmax : l2m_Zmax data s1 s2 c_dx c_dy radius
      = l2m_Z data c_dx c_dy radius pa pb := by
    apply le_antisymm
    · exact matMax_le _ h1 h2 (fun j i _ _ => hmean j i)
    · exact le_matMax _ ha hb
  have hmax := l2m_Zmax_pos hr data h1 h2 c_dx c_dy
  have hunit : label2maskmap_unit data s1 s2 c_dx c_dy radius pa pb = 1 := by
    unfold label2maskmap_unit
    rw [mul_one_div, hZmax]
    rw [hZmax] at hmax
    exact div_self hmax.ne'
  exact ⟨hunit, label2maskmap_byte_eq_255_of_unit_one hunit⟩

/-! ### `extract_all` -/

/-- `extract_all(list_coord_label, shape_im)`:
`shape_tmp = (1, shape_im[0], shape_im[1])`; each point's heatmap is
`label2maskmap_gt(x, shape_tmp)` with its *default* keyword arguments —
`c_dx = c_dy = 0`, `radius = 10` and `normalize=False`, i.e. the byte
variant — and `final[0, w, h]` (a float array initialized to zeros) is
the running elementwise `max` over the points. -/
def extract_all (pts : List (List ℝ)) (s0 s1 : ℕ) (w h : ℕ) : ℝ :=
  pts.foldl
    (fun acc x =>
      max acc ((label2maskmap_byte x s0 s1 0 0 10 w h : ℕ) : ℝ)) 0

lemma extract_all_pair (p q : List ℝ) (s0 s1 w h : ℕ) :
    extract_all [p, q] s0 s1 w h
      = max ((label2maskmap_byte p s0 s1 0 0 10 w h : ℕ) : ℝ)
          ((label2maskmap_byte q s0 s1 0 0 10 w h : ℕ) : ℝ) := by
  unfold extract_all
  simp only [List.foldl]
  rw [max_eq_right (by positivity :
    (0 : ℝ) ≤ ((label2maskmap_byte p s0 s1 0 0 10 w h : ℕ) : ℝ))]

/-! ### `get_midslice_average` window arithmetic -/

/-- The slice half-width computed by `get_midslice_average`: it starts
at 3, is set to `shape0 − ind` when `ind + 3 < shape0`, and is then set
to `ind` when `ind − window < 0`. -/
def midslice_window (shape0 ind : ℤ) : ℤ :=
  let n2 : ℤ := if ind + 3 < shape0 then shape0 - ind else 3
  if ind - n2 < 0 then ind else n2

/-- Start of the python slice `arr[ind-window : ind+window]`.  For the
pipeline's voxel indices `ind ≥ 0` the start is never negative, so no
negative-index wrapping arises. -/
def midslice_lo (shape0 ind : ℤ) : ℤ := ind - midslice_window shape0 ind

/-- End of the slice, clamped at the first-axis extent as python
slicing does. -/
def midslice_hi (shape0 ind : ℤ) : ℤ :=
  min (ind + midslice_window shape0 ind) shape0

/-- `np.mean(arr[ind-window : ind+window, :, :], 0)` at in-plane pixel
`(w, h)`: the sum over the selected slices divided by their number.
On an *empty* slice range numpy's mean is `0/0` (NaN, with a runtime
warning); in this real embedding `0/0 = 0` — in both semantics the
result is not a slice of the volume. -/
def get_midslice_average (arr : ℤ → ℤ → ℤ → ℝ) (shape0 ind w h : ℤ) : ℝ :=
  (∑ i ∈ Finset.Ico (midslice_lo shape0 ind) (midslice_hi shape0 ind),
      arr i w h)
    / (((midslice_hi shape0 ind - midslice_lo shape0 ind).toNat : ℕ) : ℝ)

/-- Modelled from the spec: the clamping rule as the spec states it —
shrink the half-width to `extent − index` when `index + 3` *exceeds*
the extent, then shrink it to `index` when `index − window < 0`.  The
code this sentence describes is `midslice_window` above; this
definition follows the spec's words, for comparison. -/
def spec_midslice_window (shape0 ind : ℤ) : ℤ :=
  let n2 : ℤ := if ind + 3 > shape0 then shape0 - ind else 3
  if ind - n2 < 0 then ind else n2

/-! ## Claims -/

/-- C1 (counterexample): `gkern(3)` is strictly larger at the `(0,0)`
corner than at the center `(1,1)`, so the kernel does *not* have its
global maximum at the center entry for odd `k`: the 1D bins
`Φ((i+1)/k) − Φ(i/k)` are taken over `[0, 1]`, where the normal density
is strictly decreasing, so the kernel peaks at the corner. -/
theorem C1_counterexample : gkern 3 1 1 < gkern 3 0 0 :=
  gkern_lt_corner (by norm_num) (by simp)

/-- C1 (amended): for every `k ≥ 2`, `gkern(k)` is a `k × k` symmetric
array with all values in `[0, 1]` whose single global maximum is the
`(0,0)` *corner* entry (value 1), not the center; for `k = 1` the
min-max normalization degenerates to `0/0` (NaN). -/
theorem C1_amended (k : ℕ) (hk : 2 ≤ k) :
    (∀ i j, gkern k i j = gkern k j i) ∧
    (∀ i j, i < k → j < k → 0 ≤ gkern k i j ∧ gkern k i j ≤ 1) ∧
    gkern k 0 0 = 1 ∧
    (∀ i j, i < k → j < k → ¬(i = 0 ∧ j = 0) → gkern k i j < gkern k 0 0) :=
  ⟨fun i j => gkern_symm k i j,
   fun i j hi hj => ⟨gkern_nonneg hk hi hj, gkern_le_one hk i j⟩,
   gkern_corner hk,
   fun _ _ _ _ hne => gkern_lt_corner hk hne⟩

/-- C1 witness: the amended statement instantiated at `k = 3`. -/
theorem C1_amended_witness :
    (2 ≤ 3) ∧
    ((∀ i j, gkern 3 i j = gkern 3 j i) ∧
     (∀ i j, i < 3 → j < 3 → 0 ≤ gkern 3 i j ∧ gkern 3 i j ≤ 1) ∧
     gkern 3 0 0 = 1 ∧
     (∀ i j, i < 3 → j < 3 → ¬(i = 0 ∧ j = 0) → gkern 3 i j < gkern 3 0 0)) :=
  ⟨by norm_num, C1_amended 3 (by norm_num)⟩

/-- C3: the code's window rule at extent 10, index 5.  The claim (and
the function's own docstring, "averaging the 7 slices in the middle")
say the half-width stays 3 away from the boundary and shrinks to
`extent − index` only when `index + 3` exceeds the extent; the code's
comparison is inverted (`if ind + 3 < arr.shape[0]`), so in the
interior it *widens* the window to `extent − index` (then clamps to
`index`) and here averages slices `0..9` — the whole volume — instead
of `2..7`. -/
theorem C3_code_eval :
    midslice_window 10 5 = 5 ∧ spec_midslice_window 10 5 = 3 ∧
    midslice_lo 10 5 = 0 ∧ midslice_hi 10 5 = 10 ∧
    midslice_window 10 5 ≠ spec_midslice_window 10 5 := by
  refine ⟨?_, ?_, ?_, ?_, ?_⟩ <;> decide

/-- C4 (counterexample): on a volume of first-axis extent 4 (≥ 4) that
is constantly 1, the call at `index = 0` clamps the window to 0, the
slice `arr[0:0]` is empty, and the "average" is the mean of zero slices
(`0/0`: NaN in numpy, 0 in this embedding) — not `volume[0,:,:]`, which
is constantly 1. -/
theorem C4_counterexample :
    midslice_window 4 0 = 0 ∧
    midslice_lo 4 0 = midslice_hi 4 0 ∧
    get_midslice_average (fun _ _ _ => (1 : ℝ)) 4 0 0 0 = 0 ∧
    ((0 : ℝ) ≠ 1) := by
  have hw : midslice_window 4 0 = 0 := by decide
  have hlo : midslice_lo 4 0 = 0 := by decide
  have hhi : midslice_hi 4 0 = 0 := by decide
  refine ⟨hw, by rw [hlo, hhi], ?_, by norm_num⟩
  unfold get_midslice_average
  rw [hlo, hhi]
  simp

/-- C4 (amended): for every first-axis extent ≥ 4, the call at
`index = 0` shrinks the window to 0 and selects the empty slice range
`[0, 0)`: it averages zero slices (NaN in numpy), it does not return
`volume[0,:,:]`. -/
theorem C4_amended (s : ℤ) (hs : 4 ≤ s) :
    midslice_window s 0 = 0 ∧ midslice_lo s 0 = 0 ∧ midslice_hi s 0 = 0 ∧
    Finset.Ico (midslice_lo s 0) (midslice_hi s 0) = ∅ := by
  have hw : midslice_window s 0 = 0 := by
    unfold midslice_window
    rw [if_pos (by omega : (0 : ℤ) + 3 < s)]
    rw [if_pos (by omega : (0 : ℤ) - (s - 0) < 0)]
  have hlo : midslice_lo s 0 = 0 := by
    unfold midslice_lo; rw [hw]; ring
  have hhi : midslice_hi s 0 = 0 := by
    unfold midslice_hi; rw [hw]; omega
  exact ⟨hw, hlo, hhi, by rw [hlo, hhi]; simp⟩

/-- C4 witness: the amended statement instantiated at extent 4. -/
theorem C4_amended_witness :
    ((4 : ℤ) ≤ 4) ∧
    (midslice_window 4 0 = 0 ∧ midslice_lo 4 0 = 0 ∧ midslice_hi 4 0 = 0 ∧
      Finset.Ico (midslice_lo 4 0) (midslice_hi 4 0) = ∅) :=
  ⟨by decide, C4_amended 4 (by decide)⟩

/-- C5: for every finite grid containing the mean, every mean, and
every isotropic covariance `diag(r, r)` with `r > 0`, the evaluator's
maximum over the grid is its value at the mean, and the density
strictly decreases as Euclidean distance from the mean increases. -/
theorem C5_theorem (pts : Finset (ℝ × ℝ)) (mu : ℝ × ℝ) (r : ℝ)
    (hr : 0 < r) (hmu : mu ∈ pts) :
    (pts.sup' ⟨mu, hmu⟩ (fun p => multivariate_gaussian p mu (diagS r))
      = multivariate_gaussian mu mu (diagS r)) ∧
    (∀ p q : ℝ × ℝ,
      Real.sqrt (euclidSq p mu) < Real.sqrt (euclidSq q mu) →
      multivariate_gaussian q mu (diagS r)
        < multivariate_gaussian p mu (diagS r)) := by
  constructor
  · apply le_antisymm
    · exact Finset.sup'_le ⟨mu, hmu⟩
        (fun p => multivariate_gaussian p mu (diagS r))
        (fun p _ => mvg_diag_le_mean hr p mu)
    · exact Finset.le_sup'
        (fun p => multivariate_gaussian p mu (diagS r)) hmu
  · intro p q hpq
    apply mvg_diag_strictAnti hr
    have h0 : 0 ≤ euclidSq p mu := by unfold euclidSq; positivity
    exact (Real.sqrt_lt_sqrt_iff h0).mp hpq

/-- C5 witness: the grid `{(0,0), (3,4)}` with mean `(0,0)` and
radius 1. -/
theorem C5_witness :
    ((0 : ℝ) < 1) ∧ ((0 : ℝ), (0 : ℝ)) ∈ ({((0 : ℝ), (0 : ℝ)), ((3 : ℝ), (4 : ℝ))} : Finset (ℝ × ℝ)) ∧
    ((({((0 : ℝ), (0 : ℝ)), ((3 : ℝ), (4 : ℝ))} : Finset (ℝ × ℝ)).sup'
        ⟨((0 : ℝ), (0 : ℝ)), by simp⟩
        (fun p => multivariate_gaussian p ((0 : ℝ), (0 : ℝ)) (diagS 1))
      = multivariate_gaussian ((0 : ℝ), (0 : ℝ)) ((0 : ℝ), (0 : ℝ)) (diagS 1)) ∧
    (∀ p q : ℝ × ℝ,
      Real.sqrt (euclidSq p ((0 : ℝ), (0 : ℝ)))
        < Real.sqrt (euclidSq q ((0 : ℝ), (0 : ℝ))) →
      multivariate_gaussian q ((0 : ℝ), (0 : ℝ)) (diagS 1)
        < multivariate_gaussian p ((0 : ℝ), (0 : ℝ)) (diagS 1))) :=
  ⟨by norm_num, by simp,
    C5_theorem {((0 : ℝ), (0 : ℝ)), ((3 : ℝ), (4 : ℝ))} ((0 : ℝ), (0 : ℝ)) 1
      (by norm_num) (by simp)⟩

/-- C6 (counterexample): a single point at `(2,2)` in a 5×5 image,
kernel length 3.  The claim puts the convolution peak at the coordinate
offset by `(3−1)/2 = 1`, i.e. at `(3,3)`; but the output at `(3,3)` is
strictly below the output at `(2,2)`, so the peak is *not* at the
offset position — `gkern`'s maximum sits at its `(0,0)` corner, so the
full convolution of a single point peaks at the point itself. -/
theorem C6_counterexample :
    heatmap_generation (deltaImg 2 2) 5 5 3 3 3
      < heatmap_generation (deltaImg 2 2) 5 5 3 2 2 :=
  heat_delta_lt_peak (by norm_num) (by norm_num) (by norm_num)
    (by norm_num) (by norm_num) (by simp)

/-- C6 (amended): for a single isolated point at `(r, c)`, the peak of
`heatmap_generation`'s full-convolution output is at the point's own
coordinate `(r, c)` — offset 0, not `(kernel_length−1)/2`, because
`gkern`'s maximum is its `(0,0)` corner entry — and the closed-form
grid of `label2maskmap_gt` for the same point attains its maximum at
the same pixel `(r, c)`: the two strategies' peak locations coincide. -/
theorem C6_amended (M N L r c : ℕ) (radius : ℝ) (hL : 2 ≤ L)
    (hr : r < M) (hc : c < N) (hrad : 0 < radius) :
    (∀ i j, i < M + L - 1 → j < N + L - 1 → ¬(i = r ∧ j = c) →
      heatmap_generation (deltaImg r c) M N L i j
        < heatmap_generation (deltaImg r c) M N L r c) ∧
    (∀ j i : ℕ, l2m_Z [0, (r : ℝ), (c : ℝ)] 0 0 radius j i
      ≤ l2m_Z [0, (r : ℝ), (c : ℝ)] 0 0 radius r c) := by
  constructor
  · intro i j hi hj hne
    exact heat_delta_lt_peak hL hr hc hi hj hne
  · have hx : l2m_x [0, (r : ℝ), (c : ℝ)] 0 = (c : ℝ) := by
      simp [l2m_x, fixData]
    have hy : l2m_y [0, (r : ℝ), (c : ℝ)] 0 = (r : ℝ) := by
      simp [l2m_y, fixData]
    intro j i
    unfold l2m_Z
    rw [hx, hy]
    exact mvg_diag_le_mean hrad _ _

/-- C6 witness: the amended statement at a 5×5 image, point `(2,2)`,
kernel length 3, radius 10. -/
theorem C6_amended_witness :
    ((2 ≤ 3) ∧ (2 < 5) ∧ ((0 : ℝ) < 10)) ∧
    ((∀ i j, i < 5 + 3 - 1 → j < 5 + 3 - 1 → ¬(i = 2 ∧ j = 2) →
      heatmap_generation (deltaImg 2 2) 5 5 3 i j
        < heatmap_generation (deltaImg 2 2) 5 5 3 2 2) ∧
    (∀ j i : ℕ, l2m_Z [0, ((2 : ℕ) : ℝ), ((2 : ℕ) : ℝ)] 0 0 10 j i
      ≤ l2m_Z [0, ((2 : ℕ) : ℝ), ((2 : ℕ) : ℝ)] 0 0 10 2 2)) :=
  ⟨⟨by norm_num, by norm_num, by norm_num⟩,
    C6_amended 5 5 3 2 2 10 (by norm_num) (by norm_num) (by norm_num)
      (by norm_num)⟩

/-- C7: for every point, shift, positive radius and nonempty output
window, `label2maskmap_gt` with `normalize=True` yields a real array
with maximum exactly 1 (attained, all entries in `[0,1]`), and with
`normalize=False` an 8-bit array with maximum exactly 255 (attained,
all entries ≤ 255, so the `uint8` conversion never wraps). -/
theorem C7_theorem (data : List ℝ) (s1 s2 : ℕ) (c_dx c_dy radius : ℝ)
    (hr : 0 < radius) (h1 : 1 ≤ s1) (h2 : 1 ≤ s2) :
    (∃ j i, j < s1 ∧ i < s2 ∧
      label2maskmap_unit data s1 s2 c_dx c_dy radius j i = 1) ∧
    (∀ j i, j < s1 → i < s2 →
      0 ≤ label2maskmap_unit data s1 s2 c_dx c_dy radius j i ∧
      label2maskmap_unit data s1 s2 c_dx c_dy radius j i ≤ 1) ∧
    (∃ j i, j < s1 ∧ i < s2 ∧
      label2maskmap_byte data s1 s2 c_dx c_dy radius j i = 255) ∧
    (∀ j i, j < s1 → i < s2 →
      label2maskmap_byte data s1 s2 c_dx c_dy radius j i ≤ 255) := by
  obtain ⟨j, i, hj, hi, hone⟩ :=
    exists_label2maskmap_unit_eq_one hr data h1 h2 c_dx c_dy
  refine ⟨⟨j, i, hj, hi, hone⟩, ?_,
    ⟨j, i, hj, hi, label2maskmap_byte_eq_255_of_unit_one hone⟩, ?_⟩
  · exact fun a b ha hb =>
      ⟨label2maskmap_unit_nonneg hr data h1 h2 c_dx c_dy a b,
       label2maskmap_unit_le_one hr data ha hb c_dx c_dy⟩
  · exact fun a b ha hb => label2maskmap_byte_le_255 hr data ha hb c_dx c_dy

/-- C7 witness: point `[0,0,0]`, no shift, radius 10, 1×1 window. -/
theorem C7_witness :
    (((0 : ℝ) < 10) ∧ (1 ≤ 1)) ∧
    ((∃ j i, j < 1 ∧ i < 1 ∧
      label2maskmap_unit [0, 0, 0] 1 1 0 0 10 j i = 1) ∧
    (∀ j i, j < 1 → i < 1 →
      0 ≤ label2maskmap_unit [0, 0, 0] 1 1 0 0 10 j i ∧
      label2maskmap_unit [0, 0, 0] 1 1 0 0 10 j i ≤ 1) ∧
    (∃ j i, j < 1 ∧ i < 1 ∧
      label2maskmap_byte [0, 0, 0] 1 1 0 0 10 j i = 255) ∧
    (∀ j i, j < 1 → i < 1 →
      label2maskmap_byte [0, 0, 0] 1 1 0 0 10 j i ≤ 255)) :=
  ⟨⟨by norm_num, le_refl 1⟩,
    C7_theorem [0, 0, 0] 1 1 0 0 10 (by norm_num) (le_refl 1) (le_refl 1)⟩

/-- C8: `heatmap_generation` is the min-max normalization of the full
2D convolution of the image with `gkern(L)`; the convolution vanishes
outside the `(M+L−1) × (N+L−1)` output window, and for the single-point
image at the `(M−1, N−1)` corner it is nonzero on the window's last row
and last column — so the full-mode output size along each axis is
exactly input size plus kernel length minus 1. -/
theorem C8_theorem (img : ℕ → ℕ → ℝ) (M N L : ℕ)
    (hM : 1 ≤ M) (hN : 1 ≤ N) (hL : 2 ≤ L) :
    (∀ i j : ℕ, heatmap_generation img M N L i j
      = (fullConv img M N L i j
          - matMin (M + L - 1) (N + L - 1)
              (fun a b : ℕ => fullConv img M N L a b))
        / (matMax (M + L - 1) (N + L - 1)
              (fun a b : ℕ => fullConv img M N L a b)
          - matMin (M + L - 1) (N + L - 1)
              (fun a b : ℕ => fullConv img M N L a b))) ∧
    (∀ i j : ℤ,
      ¬(0 ≤ i ∧ i < (M : ℤ) + L - 1 ∧ 0 ≤ j ∧ j < (N : ℤ) + L - 1) →
      fullConv img M N L i j = 0) ∧
    0 < fullConv (deltaImg (M - 1) (N - 1)) M N L
        ((M : ℤ) + L - 2) ((N : ℤ) - 1) ∧
    0 < fullConv (deltaImg (M - 1) (N - 1)) M N L
        ((M : ℤ) - 1) ((N : ℤ) + L - 2) := by
  have hrM : M - 1 < M := by omega
  have hcN : N - 1 < N := by omega
  have hM1 : ((M - 1 : ℕ) : ℤ) = (M : ℤ) - 1 := by omega
  have hN1 : ((N - 1 : ℕ) : ℤ) = (N : ℤ) - 1 := by omega
  refine ⟨fun i j => rfl, fun i j h => fullConv_support img h, ?_, ?_⟩
  · rw [fullConv_delta hrM hcN]
    have e1 : (M : ℤ) + L - 2 - ((M - 1 : ℕ) : ℤ) = (L : ℤ) - 1 := by omega
    have e2 : (N : ℤ) - 1 - ((N - 1 : ℕ) : ℤ) = 0 := by omega
    rw [e1, e2]
    unfold gkernZ
    rw [if_pos ⟨by omega, by omega, by omega, by omega⟩]
    have e3 : ((L : ℤ) - 1).toNat = L - 1 := by omega
    have e4 : (0 : ℤ).toNat = 0 := rfl
    rw [e3, e4]
    exact gkern_pos hL (by omega) (by omega) (by omega)
  · rw [fullConv_delta hrM hcN]
    have e1 : (M : ℤ) - 1 - ((M - 1 : ℕ) : ℤ) = 0 := by omega
    have e2 : (N : ℤ) + L - 2 - ((N - 1 : ℕ) : ℤ) = (L : ℤ) - 1 := by omega
    rw [e1, e2]
    unfold gkernZ
    rw [if_pos ⟨by omega, by omega, by omega, by omega⟩]
    have e3 : ((L : ℤ) - 1).toNat = L - 1 := by omega
    have e4 : (0 : ℤ).toNat = 0 := rfl
    rw [e3, e4]
    exact gkern_pos hL (by omega) (by omega) (by omega)

/-- C8 witness: the 1×1 all-ones image with kernel length 2. -/
theorem C8_witness :
    ((1 ≤ 1) ∧ (2 ≤ 2)) ∧
    ((∀ i j : ℕ, heatmap_generation (fun _ _ => (1 : ℝ)) 1 1 2 i j
      = (fullConv (fun _ _ => (1 : ℝ)) 1 1 2 i j
          - matMin (1 + 2 - 1) (1 + 2 - 1)
              (fun a b : ℕ => fullConv (fun _ _ => (1 : ℝ)) 1 1 2 a b))
        / (matMax (1 + 2 - 1) (1 + 2 - 1)
              (fun a b : ℕ => fullConv (fun _ _ => (1 : ℝ)) 1 1 2 a b)
          - matMin (1 + 2 - 1) (1 + 2 - 1)
              (fun a b : ℕ => fullConv (fun _ _ => (1 : ℝ)) 1 1 2 a b))) ∧
    (∀ i j : ℤ,
      ¬(0 ≤ i ∧ i < (1 : ℤ) + 2 - 1 ∧ 0 ≤ j ∧ j < (1 : ℤ) + 2 - 1) →
      fullConv (fun _ _ => (1 : ℝ)) 1 1 2 i j = 0) ∧
    0 < fullConv (deltaImg (1 - 1) (1 - 1)) 1 1 2
        ((1 : ℤ) + 2 - 2) ((1 : ℤ) - 1) ∧
    0 < fullConv (deltaImg (1 - 1) (1 - 1)) 1 1 2
        ((1 : ℤ) - 1) ((1 : ℤ) + 2 - 2)) :=
  ⟨⟨le_refl 1, le_refl 2⟩,
    C8_theorem (fun _ _ => (1 : ℝ)) 1 1 2 (le_refl 1) (le_refl 1) (le_refl 2)⟩

/-- C9 (counterexample): for the non-positive radius `−1` the covariance
`diag(−1, −1)` is invertible (`det = 1 ≠ 0`), so `np.linalg.inv` does not
raise and `multivariate_gaussian` returns a density value — the
evaluator does not fail or reject the input. -/
theorem C9_counterexample :
    multivariate_gaussian_checked (0, 0) (0, 0) (diagS (-1))
      = some (multivariate_gaussian (0, 0) (0, 0) (diagS (-1))) := by
  have h : det2 (diagS (-1)) ≠ 0 := by
    unfold det2 diagS
    norm_num
  unfold multivariate_gaussian_checked
  rw [if_neg h]

/-- C9 (amended): the evaluator fails only at radius 0, where the
covariance is singular and `np.linalg.inv` raises; for every nonzero
radius — negative included — it returns a value. -/
theorem C9_amended (p mu : ℝ × ℝ) (r : ℝ) :
    multivariate_gaussian_checked p mu (diagS r) = none ↔ r = 0 := by
  unfold multivariate_gaussian_checked
  by_cases h : r = 0
  · subst h
    rw [if_pos (by unfold det2 diagS; norm_num)]
    simp
  · have hd : det2 (diagS r) = r * r := by unfold det2 diagS; ring
    rw [if_neg ?_]
    · simp [h]
    · rw [hd]
      exact fun hc => h (mul_self_eq_zero.mp hc)

/-- C10: for every positive radius the density is strictly positive at
every point (exact-real semantics), hence the grid maximum
`np.max(Z)` in `label2maskmap_gt` is strictly positive and the
peak-scaling division `Z * (1/np.max(Z))` never divides by zero. -/
theorem C10_theorem (data : List ℝ) (s1 s2 : ℕ) (c_dx c_dy radius : ℝ)
    (hr : 0 < radius) (h1 : 1 ≤ s1) (h2 : 1 ≤ s2) :
    (∀ p mu : ℝ × ℝ, 0 < multivariate_gaussian p mu (diagS radius)) ∧
    0 < l2m_Zmax data s1 s2 c_dx c_dy radius ∧
    l2m_Zmax data s1 s2 c_dx c_dy radius ≠ 0 :=
  ⟨fun p mu => mvg_diag_pos hr p mu,
   l2m_Zmax_pos hr data h1 h2 c_dx c_dy,
   (l2m_Zmax_pos hr data h1 h2 c_dx c_dy).ne'⟩

/-- C10 witness: point `[0,0,0]`, radius 10, 1×1 grid. -/
theorem C10_witness :
    (((0 : ℝ) < 10) ∧ (1 ≤ 1)) ∧
    ((∀ p mu : ℝ × ℝ, 0 < multivariate_gaussian p mu (diagS 10)) ∧
    0 < l2m_Zmax [0, 0, 0] 1 1 0 0 10 ∧
    l2m_Zmax [0, 0, 0] 1 1 0 0 10 ≠ 0) :=
  ⟨⟨by norm_num, le_refl 1⟩,
    C10_theorem [0, 0, 0] 1 1 0 0 10 (by norm_num) (le_refl 1) (le_refl 1)⟩

/-- C2 (counterexample): two points `(0,1,1)` and `(0,3,3)` on a 5×5
canvas.  `extract_all` calls `label2maskmap_gt` with its *default*
`normalize=False`, i.e. the byte (0..255) variant, so the merged value
at the first peak is 255, not 1.0 as the claim's unit-normalized
reading requires. -/
theorem C2_counterexample :
    extract_all [[0, 1, 1], [0, 3, 3]] 5 5 1 1 = 255 ∧ (255 : ℝ) ≠ 1 := by
  constructor
  · rw [extract_all_pair]
    have hx : l2m_x [0, 1, 1] 0 = ((1 : ℕ) : ℝ) := by
      norm_num [l2m_x, fixData]
    have hy : l2m_y [0, 1, 1] 0 = ((1 : ℕ) : ℝ) := by
      norm_num [l2m_y, fixData]
    have hpeak := (label2maskmap_peak (by norm_num : (0 : ℝ) < 10)
      (by norm_num : 1 < 5) (by norm_num : 1 < 5) hx hy).2
    have hq : label2maskmap_byte [0, 3, 3] 5 5 0 0 10 1 1 ≤ 255 :=
      label2maskmap_byte_le_255 (by norm_num) _ (by norm_num) (by norm_num) 0 0
    rw [hpeak]
    rw [max_eq_left (by exact_mod_cast hq)]
    norm_num
  · norm_num

/-- C2 (amended): `extract_all` builds each point's heatmap via
`label2maskmap_gt` with its default `normalize=False` — the
byte-normalized variant with peak value 255, not the unit-normalized
one — and combines them by per-pixel maximum: for two points with
coordinates inside the canvas the merged image equals the pixel-wise
`max` (not the sum) of the two byte heatmaps and carries the value 255
at each point's own pixel. -/
theorem C2_amended (pv qv : ℝ) (pa pb qa qb s0 s1 : ℕ)
    (hpa : pa < s0) (hpb : pb < s1) (hqa : qa < s0) (hqb : qb < s1) :
    extract_all [[pv, (pa : ℝ), (pb : ℝ)], [qv, (qa : ℝ), (qb : ℝ)]]
        s0 s1 pa pb = 255 ∧
    extract_all [[pv, (pa : ℝ), (pb : ℝ)], [qv, (qa : ℝ), (qb : ℝ)]]
        s0 s1 qa qb = 255 ∧
    (∀ w h, extract_all [[pv, (pa : ℝ), (pb : ℝ)], [qv, (qa : ℝ), (qb : ℝ)]]
        s0 s1 w h
      = max ((label2maskmap_byte [pv, (pa : ℝ), (pb : ℝ)] s0 s1 0 0 10 w h : ℕ) : ℝ)
          ((label2maskmap_byte [qv, (qa : ℝ), (qb : ℝ)] s0 s1 0 0 10 w h : ℕ) : ℝ)) := by
  have hx_p : l2m_x [pv, (pa : ℝ), (pb : ℝ)] 0 = (pb : ℝ) := by
    simp [l2m_x, fixData]
  have hy_p : l2m_y [pv, (pa : ℝ), (pb : ℝ)] 0 = (pa : ℝ) := by
    simp [l2m_y, fixData]
  have hx_q : l2m_x [qv, (qa : ℝ), (qb : ℝ)] 0 = (qb : ℝ) := by
    simp [l2m_x, fixData]
  have hy_q : l2m_y [qv, (qa : ℝ), (qb : ℝ)] 0 = (qa : ℝ) := by
    simp [l2m_y, fixData]
  have hpeak_p := (label2maskmap_peak (by norm_num : (0 : ℝ) < 10)
    hpa hpb hx_p hy_p).2
  have hpeak_q := (label2maskmap_peak (by norm_num : (0 : ℝ) < 10)
    hqa hqb hx_q hy_q).2
  refine ⟨?_, ?_, fun w h => extract_all_pair _ _ _ _ _ _⟩
  · rw [extract_all_pair, hpeak_p]
    have hq : label2maskmap_byte [qv, (qa : ℝ), (qb : ℝ)] s0 s1 0 0 10 pa pb
        ≤ 255 :=
      label2maskmap_byte_le_255 (by norm_num) _ hpa hpb 0 0
    rw [max_eq_left (by exact_mod_cast hq)]
    norm_num
  · rw [extract_all_pair, hpeak_q]
    have hp : label2maskmap_byte [pv, (pa : ℝ), (pb : ℝ)] s0 s1 0 0 10 qa qb
        ≤ 255 :=
      label2maskmap_byte_le_255 (by norm_num) _ hqa hqb 0 0
    rw [max_eq_right (by exact_mod_cast hp)]
    norm_num

/-- C2 witness: points `(0,1,1)` and `(0,3,3)` on a 5×5 canvas. -/
theorem C2_amended_witness :
    ((1 < 5) ∧ (3 < 5)) ∧
    (extract_all [[0, ((1 : ℕ) : ℝ), ((1 : ℕ) : ℝ)],
        [0, ((3 : ℕ) : ℝ), ((3 : ℕ) : ℝ)]] 5 5 1 1 = 255 ∧
    extract_all [[0, ((1 : ℕ) : ℝ), ((1 : ℕ) : ℝ)],
        [0, ((3 : ℕ) : ℝ), ((3 : ℕ) : ℝ)]] 5 5 3 3 = 255 ∧
    (∀ w h, extract_all [[0, ((1 : ℕ) : ℝ), ((1 : ℕ) : ℝ)],
        [0, ((3 : ℕ) : ℝ), ((3 : ℕ) : ℝ)]] 5 5 w h
      = max ((label2maskmap_byte [0, ((1 : ℕ) : ℝ), ((1 : ℕ) : ℝ)] 5 5 0 0 10 w h : ℕ) : ℝ)
          ((label2maskmap_byte [0, ((3 : ℕ) : ℝ), ((3 : ℕ) : ℝ)] 5 5 0 0 10 w h : ℕ) : ℝ))) :=
  ⟨⟨by norm_num, by norm_num⟩,
    C2_amended 0 0 1 1 3 3 5 5 (by norm_num) (by norm_num) (by norm_num)
      (by norm_num)⟩

end PrepareDataset

end

